import Mathlib

/-!
Verification development for the live-transcription pipeline in
`src/model/live_transcriber.py` (class `LiveTranscriber`).

The Python code is shallowly embedded:
* audio samples are modelled as rationals (the code uses float32; none of the
  verified properties depend on rounding),
* a frame is the list of its samples,
* the voice-activity segmenter of `process_loop` becomes a pure step function
  `processFrame` folded over the frame stream,
* the bounded ingestion queue of `audio_callback` becomes a list with the
  drop-oldest push,
* the sequence-ordered printer of `printer_loop` becomes a fueled drain over an
  association list modelling the `self._results` dict,
* `transcribe_utterance` and the future-harvesting code become `Except`-valued
  functions (a Python exception is `Except.error`),
* the configuration derivation of `__init__` becomes `initTranscriber`.
-/

namespace ClearComms

/-- A frame of audio: the list of its samples (source: a numpy float32 slice of
`frame_samples` samples). -/
abbrev Frame := List ℚ

/-- Sum of squares of the samples, `np.sum` over `x * x`. -/
def sumSq (x : Frame) : ℚ := (x.map (fun a => a * a)).sum

/-- Mean of squares, `np.mean(x * x)`; on the empty frame we return 0 (the code
never evaluates `rms` on an empty frame: frames have `frame_samples ≥ 1`
samples). -/
def meanSq (x : Frame) : ℚ := sumSq x / (x.length : ℚ)

/-- Speech classification of a frame,
source: `rms(frame) >= self.vad_rms_threshold` with
`rms(x) = sqrt(mean(x*x) + 1e-12)`.  Over the reals,
`thr ≤ sqrt (m)` with `m ≥ 0` is equivalent to `thr ≤ 0 ∨ thr^2 ≤ m`; we use
the right-hand side, which stays inside ℚ and is decidable
(see `isSpeech_iff_rms_le`). -/
def isSpeech (thr : ℚ) (x : Frame) : Bool :=
  decide (thr ≤ 0 ∨ thr ^ 2 ≤ meanSq x + 1 / 10 ^ 12)

/-- Python `int(q)`: truncation toward zero. -/
def truncInt (q : ℚ) : ℤ := if 0 ≤ q then ⌊q⌋ else ⌈q⌉

/-- Python `max(1, n)` for an int `n`, landing in ℕ since the result is ≥ 1. -/
def natClamp (n : ℤ) : ℕ := (max 1 n).toNat

/-- The configuration-derived attributes set by `LiveTranscriber.__init__`. -/
structure Params where
  frame_samples : ℤ
  min_speech_frames : ℕ
  hangover_frames : ℕ
  preroll_frames : ℕ
  max_utt_frames : ℤ
  vad_rms_threshold : ℚ
  deriving Repr, DecidableEq

/-- Push onto a `collections.deque` with `maxlen = cap`: append on the right,
evicting from the left when the deque is full. -/
def ringPush (cap : ℕ) (q : List Frame) (x : Frame) : List Frame :=
  (q ++ [x]).drop (q.length + 1 - cap)

/-- The mutable state of the segmentation loop `process_loop` (its local
variables), together with the dispatcher state it touches on emission:
`self._seq` and the list of utterances submitted to the worker pool, oldest
first, each tagged with its sequence number.  An utterance is kept as its list
of frames (the code concatenates the frames into one numpy array on
submission; the concatenation is `List.join` of the recorded frames). -/
structure SegState where
  preroll : List Frame
  in_speech : Bool
  speech_frames : List Frame
  speech_run : ℕ
  silence_run : ℕ
  seq : ℕ
  emitted : List (ℕ × List Frame)
  deriving Repr, DecidableEq

/-- The initial state of `process_loop`. -/
def initSeg : SegState :=
  { preroll := [], in_speech := false, speech_frames := [], speech_run := 0,
    silence_run := 0, seq := 0, emitted := [] }

/-- One iteration of the inner frame loop of `process_loop`
(src/model/live_transcriber.py, lines 127-171): classify the frame, push it
into the preroll deque, then run the voice-activity state machine.  Emission
(`silence_run >= hangover_frames or len(speech_frames) >= max_utt_frames`)
appends the utterance to `emitted` with the current `self._seq`, increments
`self._seq`, resets the counters and clears the preroll deque. -/
def processFrame (p : Params) (s : SegState) (frame : Frame) : SegState :=
  let is_sp := isSpeech p.vad_rms_threshold frame
  let pre := ringPush p.preroll_frames s.preroll frame
  if s.in_speech = false then
    if is_sp then
      let run := s.speech_run + 1
      if p.min_speech_frames ≤ run then
        { s with preroll := pre, speech_run := run, in_speech := true,
                 silence_run := 0, speech_frames := pre }
      else
        { s with preroll := pre, speech_run := run }
    else
      { s with preroll := pre, speech_run := 0 }
  else
    let sf := s.speech_frames ++ [frame]
    let sil := if is_sp then 0 else s.silence_run + 1
    if p.hangover_frames ≤ sil ∨ p.max_utt_frames ≤ (sf.length : ℤ) then
      { preroll := [], in_speech := false, speech_frames := [],
        speech_run := 0, silence_run := 0, seq := s.seq + 1,
        emitted := s.emitted ++ [(s.seq, sf)] }
    else
      { s with preroll := pre, speech_frames := sf, silence_run := sil }

/-- Folding the frame loop over a finite frame sequence. -/
def processFrames (p : Params) (s : SegState) (fs : List Frame) : SegState :=
  fs.foldl (processFrame p) s

/-! ### The ingestion queue (`audio_callback` / `queue.Queue`) -/

/-- Python `queue.Queue.full()`: true iff `0 < maxsize` and `qsize ≥ maxsize`
(a maxsize ≤ 0 means an unbounded queue). -/
def queueFull (cap : ℤ) (q : List α) : Bool :=
  decide (0 < cap ∧ cap ≤ (q.length : ℤ))

/-- `LiveTranscriber.audio_callback` (lines 77-90): if the stop event is set
the block is discarded; otherwise `put_nowait`; on `queue.Full`, one
`get_nowait` drops the oldest entry and the block is enqueued.  (A full queue
is nonempty, so in the sequential push/pull model the inner `get_nowait`
always succeeds and the bare `except Exception: pass` is never reached.) -/
def audio_callback (cap : ℤ) (stopped : Bool) (q : List α) (x : α) : List α :=
  if stopped then q
  else if queueFull cap q then q.drop 1 ++ [x]
  else q ++ [x]

/-- One producer or consumer action on the ingestion queue. -/
inductive QOp (α : Type) where
  | push (x : α)
  | pull
  deriving Repr

/-- A consumer `get` (`process_loop` line 123): remove the oldest entry; on an
empty queue the call times out and the loop retries, leaving the queue
unchanged. -/
def queuePull (q : List α) : List α := q.drop 1

/-- Apply a finite sequence of producer pushes (through `audio_callback`, with
the stop event not set) and consumer pulls to the queue. -/
def applyQOps (cap : ℤ) (q : List α) (ops : List (QOp α)) : List α :=
  ops.foldl (fun q op => match op with
    | QOp.push x => audio_callback cap false q x
    | QOp.pull => queuePull q) q

/-! ### The result sequencer (`printer_loop` and `self._results`) -/

/-- Lookup in the association list modelling the dict `self._results`. -/
def lookupKey (k : ℕ) : List (ℕ × α) → Option α
  | [] => none
  | p :: ps => if p.1 = k then some p.2 else lookupKey k ps

/-- `dict.pop(k)`: remove the (first) entry with key `k`. -/
def eraseKey (k : ℕ) : List (ℕ × α) → List (ℕ × α)
  | [] => []
  | p :: ps => if p.1 = k then ps else p :: eraseKey k ps

/-- The state shared between `process_loop` workers and `printer_loop`:
`self._next_to_print`, the dict `self._results`, and the ordered list of
results handed to the sink so far (the `print` calls), oldest first. -/
structure SeqState (α : Type) where
  next : ℕ
  results : List (ℕ × α)
  out : List (ℕ × α)
  deriving Repr, DecidableEq

/-- The drain step of `printer_loop` (lines 100-105):
`while self._next_to_print in self._results: pop, advance, print`.
Structured with explicit fuel so that it computes in the kernel; each
iteration removes one entry, so `results.length` fuel always suffices
(`drainResults` below). -/
def drainAux (α : Type) : ℕ → SeqState α → SeqState α
  | 0, s => s
  | fuel + 1, s =>
    match lookupKey s.next s.results with
    | none => s
    | some r =>
      drainAux α fuel
        { next := s.next + 1, results := eraseKey s.next s.results,
          out := s.out ++ [(s.next, r)] }

/-- One pass of the drain loop of `printer_loop`. -/
def drainResults (s : SeqState α) : SeqState α := drainAux α s.results.length s

/-- A worker completion: `self._results[seq] = ...` under `self._lock`
(lines 176-178), followed by a drain pass of the printer thread. -/
def insertThenDrain (s : SeqState α) (kv : ℕ × α) : SeqState α :=
  drainResults { s with results := kv :: s.results }

/-- Run the sequencer over a completion order: the results complete (and are
inserted) one at a time, the printer draining in between. -/
def runCompletions (s : SeqState α) (l : List (ℕ × α)) : SeqState α :=
  l.foldl insertThenDrain s

/-- The printer's visible output: `printer_loop` prints a line only when the
popped transcript is nonempty (`if transcript:`). -/
def printedLines (out : List (ℕ × String)) : List String :=
  (out.filter (fun kv => !kv.2.isEmpty)).map Prod.snd

/-! ### Transcription tasks (`transcribe_utterance` and future harvesting) -/

/-- The outcome of `fut.result()`: either the tuple returned by
`transcribe_utterance` — `(seq, transcript.strip(), duration)` (the wall-clock
latency is dropped from the model) — or the exception raised inside the task. -/
def transcribe_utterance (transcribeFn : List ℚ → Except String String)
    (seq : ℕ) (audio : List ℚ) (sample_rate : ℚ) :
    Except String (ℕ × String × ℚ) :=
  (transcribeFn audio).map
    (fun t => (seq, t.trim, (audio.length : ℚ) / sample_rate))

/-- Harvesting completed futures (`process_loop` lines 173-182 and the flush at
lines 186-190): for each completed future, `f.result()` re-raises any
exception raised inside the task — there is no handler for it (the enclosing
`try` only catches `queue.Empty`), so the first failing future aborts the
loop; otherwise the tuple is stored into `self._results`. -/
def harvestResults (done : List (Except String (ℕ × String × ℚ)))
    (results : List (ℕ × String × ℚ)) :
    Except String (List (ℕ × String × ℚ)) :=
  match done with
  | [] => Except.ok results
  | Except.error e :: _ => Except.error e
  | Except.ok (seq, t, d) :: rest => harvestResults rest ((seq, t, d) :: results)

/-! ### Configuration (`LiveTranscriber.__init__`) -/

/-- The raw configuration values read from `config.yaml` (the fields the
derivations use), plus the two facts about the environment the constructor
consults: whether the encoder/decoder model files exist. -/
structure Cfg where
  sample_rate : ℚ
  frame_ms : ℚ
  vad_rms_threshold : ℚ
  min_speech_ms : ℚ
  hangover_ms : ℚ
  preroll_ms : ℚ
  max_utterance_sec : ℚ
  max_queue_chunks : ℤ
  encoder_exists : Bool
  decoder_exists : Bool
  deriving Repr, DecidableEq

/-- The `config.yaml` defaults of `__init__` (`cfg.get` fallbacks), with both
model files present. -/
def defaultCfg : Cfg :=
  { sample_rate := 16000, frame_ms := 20, vad_rms_threshold := 1 / 100,
    min_speech_ms := 250, hangover_ms := 500, preroll_ms := 200,
    max_utterance_sec := 12, max_queue_chunks := 50,
    encoder_exists := true, decoder_exists := true }

/-- `LiveTranscriber.__init__` (lines 21-57), up to and including the model
file checks.  `frame_ms = 0` raises `ZeroDivisionError` in the
`min_speech_frames` derivation (line 39, before the file checks); a missing
model file calls `sys.exit` (lines 54-57).  Every other configuration is
accepted: the constructor performs no validation of thresholds or durations;
the duration-derived frame counts are merely clamped to at least 1 by
`max(1, ...)` (`max_utt_frames` is not even clamped). -/
def initTranscriber (c : Cfg) : Except String Params :=
  if c.frame_ms = 0 then Except.error "ZeroDivisionError"
  else if c.encoder_exists = false then Except.error "Encoder model not found"
  else if c.decoder_exists = false then Except.error "Decoder model not found"
  else Except.ok
    { frame_samples := truncInt (c.sample_rate * c.frame_ms / 1000),
      min_speech_frames := natClamp (truncInt (c.min_speech_ms / c.frame_ms)),
      hangover_frames := natClamp (truncInt (c.hangover_ms / c.frame_ms)),
      preroll_frames := natClamp (truncInt (c.preroll_ms / c.frame_ms)),
      max_utt_frames := truncInt (c.max_utterance_sec * 1000 / c.frame_ms),
      vad_rms_threshold := c.vad_rms_threshold }

/-! ### Shutdown (`run`, lines 193-216, and the flush of `process_loop`) -/

/-- The flush after `process_loop` leaves its main loop (lines 186-190, run
once `stop_event` is set): each remaining future is resolved and its tuple
stored into `self._results`; nothing else happens.  `printer_loop` exits as
soon as it observes `stop_event` and `run` joins only `process_thread`
(`printer_thread` is a daemon), so no further drain occurs after the stop
signal: the `out` component — the data handed to the sink — is final. -/
def flushAtStop (ps : SeqState α) (late : List (ℕ × α)) : SeqState α :=
  { ps with results := late.foldl (fun r kv => kv :: r) ps.results }

/-- Slice a sample stream into consecutive frames of `n` samples, dropping the
trailing remainder (`process_loop` lines 126-129: the inner loop consumes
`frame_samples` samples at a time and leaves any shorter remainder in `buf`).
Fueled by the number of samples so that it computes in the kernel. -/
def sliceAux (n : ℕ) : ℕ → List ℚ → List Frame
  | 0, _ => []
  | fuel + 1, l =>
    if n ≤ l.length ∧ 0 < n then l.take n :: sliceAux n fuel (l.drop n)
    else []

/-- All full frames of `n` samples in the stream, in order. -/
def sliceFrames (n : ℕ) (l : List ℚ) : List Frame := sliceAux n l.length l

/-- Feed a raw sample stream through frame slicing and the segmenter. -/
def processSamples (p : Params) (samples : List ℚ) : SegState :=
  processFrames p initSeg (sliceFrames p.frame_samples.toNat samples)

/-- Decidable equality of `Except` values, for evaluating `initTranscriber`
and `harvestResults` on concrete configurations. -/
instance exceptDecEq {α β : Type} [DecidableEq α] [DecidableEq β] :
    DecidableEq (Except α β) := fun x y =>
  match x, y with
  | Except.error a, Except.error b =>
    if h : a = b then Decidable.isTrue (by rw [h])
    else Decidable.isFalse (fun hh => by cases hh; exact h rfl)
  | Except.ok a, Except.ok b =>
    if h : a = b then Decidable.isTrue (by rw [h])
    else Decidable.isFalse (fun hh => by cases hh; exact h rfl)
  | Except.error _, Except.ok _ => Decidable.isFalse (fun hh => by cases hh)
  | Except.ok _, Except.error _ => Decidable.isFalse (fun hh => by cases hh)

/-- Proof-device invariant for the duration-cap argument: the preroll never
exceeds its capacity, no utterance is open while Idle, an open utterance is
strictly below the cap, and every utterance already handed to the dispatcher
is within the cap. -/
def CapInv (p : Params) (s : SegState) : Prop :=
  s.preroll.length ≤ p.preroll_frames ∧
  (s.in_speech = false → s.speech_frames = []) ∧
  (s.in_speech = true → (s.speech_frames.length : ℤ) < p.max_utt_frames) ∧
  ∀ u ∈ s.emitted, ((u.2 : List Frame).length : ℤ) ≤ p.max_utt_frames

/-! ### Spec-side utterance counting (for comparison only) -/

/-- Length of the leading run of frames classified `b`. -/
def leadRun (b : Bool) : List Bool → ℕ
  | [] => 0
  | x :: xs => if x = b then leadRun b xs + 1 else 0

/-- Drop the leading run of frames classified `b`. -/
def dropRun (b : Bool) : List Bool → List Bool
  | [] => []
  | x :: xs => if x = b then dropRun b xs else x :: xs

/-- The maximal speech runs of a classified frame stream, in order, each as
(run length, length of the silence run following it).  Fueled by the list
length. -/
def speechRunsAux : ℕ → List Bool → List (ℕ × ℕ)
  | 0, _ => []
  | fuel + 1, l =>
    let l1 := dropRun false l
    match l1 with
    | [] => []
    | _ :: _ =>
      let s := leadRun true l1
      let l2 := dropRun true l1
      (s, leadRun false l2) :: speechRunsAux fuel l2

/-- All maximal speech runs of a classified frame stream. -/
def speechRuns (l : List Bool) : List (ℕ × ℕ) := speechRunsAux l.length l

/-- Modelled from the spec: "the number of emitted utterances equals the
number of speech runs that reach the minimum-speech-frame threshold, each
terminated by either sufficient trailing silence or the maximum-duration
cap".  This definition follows the spec's words (not the code) and exists
only to be compared against the utterance count the code produces. -/
def specUtteranceCount (minF hangF : ℕ) (maxF : ℤ) (l : List Bool) : ℕ :=
  ((speechRuns l).filter
    (fun r => decide (minF ≤ r.1) &&
      (decide (hangF ≤ r.2) || decide (maxF ≤ (r.1 : ℤ))))).length

/-! ### Concrete frames, parameter records and streams used in the
counterexamples and witnesses -/

/-- A one-sample frame of constant amplitude 0.05 (RMS 0.05, speech under
threshold 0.01). -/
def spFrame : Frame := [1 / 20]

/-- A one-sample silent frame (RMS ≈ 0, silence under threshold 0.01). -/
def silFrame : Frame := [0]

/-- A configuration whose voice-activity threshold is invalid (negative) and
whose minimum-speech and hangover durations are non-positive, with both model
files present. -/
def cfgC8bad : Cfg :=
  { defaultCfg with vad_rms_threshold := -1, min_speech_ms := -250,
                    hangover_ms := 0 }

/-- Derived parameters for `max_utterance_sec = 0.1` (5 frames of 20 ms) with
the default 200 ms preroll — a configuration whose preroll capacity (10
frames) exceeds the maximum utterance frame count. -/
def pC6 : Params :=
  { frame_samples := 1, min_speech_frames := 1, hangover_frames := 25,
    preroll_frames := 10, max_utt_frames := 5, vad_rms_threshold := 1 / 100 }

/-- Ten silent frames (filling the preroll) followed by twelve speech frames. -/
def streamC6 : List Frame :=
  List.replicate 10 silFrame ++ List.replicate 12 spFrame

/-- Small derived parameters: 1 frame of minimum speech, 2 frames of hangover,
3-frame maximum utterance, 1-frame preroll. -/
def pC7 : Params :=
  { frame_samples := 1, min_speech_frames := 1, hangover_frames := 2,
    preroll_frames := 1, max_utt_frames := 3, vad_rms_threshold := 1 / 100 }

/-- A single maximal speech run of 6 frames followed by 2 silent frames. -/
def streamC7 : List Frame :=
  List.replicate 6 spFrame ++ List.replicate 2 silFrame

/-- Parameters under which an utterance accumulates for a long time: minimum
speech 1 frame, hangover 10 frames, cap 100 frames. -/
def pC3 : Params :=
  { frame_samples := 1, min_speech_frames := 1, hangover_frames := 10,
    preroll_frames := 1, max_utt_frames := 100, vad_rms_threshold := 1 / 100 }

/-- The default configuration at a 50 Hz sample rate, so that each 20 ms frame
is a single sample (the claims fix the frame duration, not the sample rate). -/
def cfg9 : Cfg := { defaultCfg with sample_rate := 50 }

/-- The parameters `initTranscriber` derives from `cfg9`. -/
def p9 : Params :=
  { frame_samples := 1, min_speech_frames := 12, hangover_frames := 25,
    preroll_frames := 10, max_utt_frames := 600, vad_rms_threshold := 1 / 100 }

/-- 5 seconds of constant amplitude-0.05 audio (250 frames of 20 ms at 50 Hz)
surrounded by silence. -/
def stream9 : List ℚ :=
  List.replicate 12 0 ++ List.replicate 250 (1 / 20) ++ List.replicate 30 0

/-! ## Theorems -/

set_option maxRecDepth 100000

/-- C10: once the stop event is set, `audio_callback` discards the incoming
block before touching the queue: the ingestion queue is never modified by the
producer after stop. -/
theorem audio_callback_discards_after_stop (α : Type) (cap : ℤ) (q : List α)
    (x : α) : audio_callback cap true q x = q := rfl

/-- C8 counterexample: the configuration `cfgC8bad` has a negative
voice-activity threshold, a negative minimum-speech duration and a zero
hangover duration, yet `__init__` accepts it (no exception, no exit): the
invalid threshold reaches the running pipeline unchanged and the non-positive
durations are silently clamped to one frame. -/
theorem init_accepts_invalid_config_cex :
    initTranscriber cfgC8bad = Except.ok
      { frame_samples := 320, min_speech_frames := 1, hangover_frames := 1,
        preroll_frames := 10, max_utt_frames := 600,
        vad_rms_threshold := -1 } := by
  with_unfolding_all decide

/-- C8 amended: startup fails only when a model file is missing or the frame
duration is zero (a division error); thresholds and durations are not
validated.  Any other configuration — invalid thresholds included — is
accepted, its threshold reaching the running pipeline unchanged, its
duration-derived frame counts merely clamped to at least one frame. -/
theorem init_validates_no_thresholds (c : Cfg) (hf : c.frame_ms ≠ 0)
    (he : c.encoder_exists = true) (hd : c.decoder_exists = true) :
    ∃ p : Params, initTranscriber c = Except.ok p ∧
      p.vad_rms_threshold = c.vad_rms_threshold ∧
      1 ≤ p.min_speech_frames ∧ 1 ≤ p.hangover_frames ∧
      1 ≤ p.preroll_frames := by
  refine ⟨{ frame_samples := truncInt (c.sample_rate * c.frame_ms / 1000),
            min_speech_frames := natClamp (truncInt (c.min_speech_ms / c.frame_ms)),
            hangover_frames := natClamp (truncInt (c.hangover_ms / c.frame_ms)),
            preroll_frames := natClamp (truncInt (c.preroll_ms / c.frame_ms)),
            max_utt_frames := truncInt (c.max_utterance_sec * 1000 / c.frame_ms),
            vad_rms_threshold := c.vad_rms_threshold }, ?_, rfl, ?_, ?_, ?_⟩
  · simp [initTranscriber, hf, he, hd]
  all_goals simp only [natClamp]
  all_goals omega

/-- Witness for `init_validates_no_thresholds` at the invalid configuration
`cfgC8bad`. -/
theorem init_validates_no_thresholds_witness :
    ∃ p : Params, initTranscriber cfgC8bad = Except.ok p ∧
      p.vad_rms_threshold = cfgC8bad.vad_rms_threshold ∧
      1 ≤ p.min_speech_frames ∧ 1 ≤ p.hangover_frames ∧
      1 ≤ p.preroll_frames :=
  init_validates_no_thresholds cfgC8bad (by with_unfolding_all decide) rfl rfl

/-- C9 counterexample: with frame duration 20 ms, the default 250 ms minimum
speech duration yields `max(1, int(250 / 20)) = 12` frames, not the 13 the
claim states (Python `int` truncates 12.5 to 12). -/
theorem min_speech_frames_cex :
    initTranscriber defaultCfg = Except.ok
      { frame_samples := 320, min_speech_frames := 12, hangover_frames := 25,
        preroll_frames := 10, max_utt_frames := 600,
        vad_rms_threshold := 1 / 100 } ∧ (12 : ℕ) ≠ 13 := by
  constructor
  · with_unfolding_all decide
  · decide

set_option maxRecDepth 100000 in
/-- C9 amended: with frame duration 20 ms, 250 ms of minimum speech yields 12
frames (not 13) and 500 ms of hangover yields 25 frames; under threshold 0.01
RMS, feeding 5 seconds of constant amplitude-0.05 audio surrounded by silence
(at 50 Hz, so each 20 ms frame is one sample) produces exactly one utterance,
of 273 frames = 5.46 s: the 10-frame preroll covers speech onset, detection
consumes two onset frames beyond the preroll, and the 25-frame hangover tail
is included, so the length is approximately 5 s plus preroll plus hangover. -/
theorem concrete_scenario_eval :
    initTranscriber cfg9 = Except.ok p9 ∧
    p9.min_speech_frames = 12 ∧ p9.hangover_frames = 25 ∧
    (processSamples p9 stream9).emitted.map (fun kv => (kv.1, kv.2.length))
      = [(0, 273)] := by
  refine ⟨by with_unfolding_all decide, rfl, rfl, ?_⟩
  with_unfolding_all decide

/-- C2 counterexample: a failing transcription call is not recovered anywhere:
`transcribe_utterance` propagates the exception into the future, and
harvesting a failed future re-raises it (the claim requires the harvest to
store an empty-text result for the slot instead — the harvest returns an
exception, storing nothing). -/
theorem transcription_failure_cex :
    transcribe_utterance (fun _ => Except.error "boom") 0 spFrame 16000
      = Except.error "boom" ∧
    harvestResults [Except.error "boom"] [] = Except.error "boom" :=
  ⟨rfl, rfl⟩

/-- C2 amended: a failed transcription call is not recovered: the exception is
re-raised by `f.result()` when the future is harvested, aborting the
processing loop, so the failed utterance's sequence slot is never filled
(with empty text or anything else) and later sequence numbers are not
emitted. -/
theorem harvest_aborts_on_failure (done : List (Except String (ℕ × String × ℚ)))
    (res : List (ℕ × String × ℚ)) (e : String)
    (h : Except.error e ∈ done) :
    ∃ msg, harvestResults done res = Except.error msg := by
  induction done generalizing res with
  | nil => cases h
  | cons hd tl ih =>
    match hd, h with
    | Except.error msg, _ => exact ⟨msg, rfl⟩
    | Except.ok (seq, t, d), h =>
      rcases List.mem_cons.mp h with h1 | h2
      · cases h1
      · exact ih ((seq, t, d) :: res) h2

/-- Witness for `harvest_aborts_on_failure`: one successful future followed by
a failing one. -/
theorem harvest_aborts_on_failure_witness :
    ∃ msg, harvestResults [Except.ok (0, "hi", 1), Except.error "boom"] []
      = Except.error msg :=
  harvest_aborts_on_failure [Except.ok (0, "hi", 1), Except.error "boom"] []
    "boom" (by simp)

/-- C3 (evaluating the code at the failing input): stop is requested while an
utterance is open (three speech frames accumulated, hangover not reached) and
while the completed result for sequence 1 is still unprinted.  The processing
loop exits with the open utterance never handed to the dispatcher
(`emitted = []`), and the post-stop flush stores the late result into
`self._results` while the sink output stays exactly as it was — `printer_loop`
has already exited on the stop flag and nothing ever drains the buffer. -/
theorem shutdown_loses_data_eval :
    (processFrames pC3 initSeg (List.replicate 3 spFrame)).in_speech = true ∧
    (processFrames pC3 initSeg (List.replicate 3 spFrame)).speech_frames.length
      = 3 ∧
    (processFrames pC3 initSeg (List.replicate 3 spFrame)).emitted = [] ∧
    (flushAtStop { next := 1, results := [], out := [(0, "first")] }
      [(1, "late")]).results = [(1, "late")] ∧
    (flushAtStop { next := 1, results := [], out := [(0, "first")] }
      [(1, "late")]).out = [(0, "first")] := by
  refine ⟨?_, ?_, ?_, rfl, rfl⟩ <;> with_unfolding_all decide

/-- C6 counterexample: with a 10-frame preroll and a 5-frame maximum utterance
length (`max_utterance_sec = 0.1` at 20 ms frames), ten silent frames followed
by speech seed the first utterance with the full 10-frame preroll, and it is
handed to the dispatcher with 11 frames — more than the configured maximum of
5. -/
theorem max_frames_exceeded_cex :
    (processFrames pC6 initSeg streamC6).emitted.map
      (fun kv => (kv.1, kv.2.length)) = [(0, 11), (1, 5), (2, 5)] ∧
    pC6.max_utt_frames = 5 := by
  constructor
  · with_unfolding_all decide
  · rfl

/-- C7 counterexample: with minimum speech 1 frame, hangover 2 frames and a
3-frame maximum utterance length, a single maximal speech run of 6 frames
followed by 2 silent frames is split by the duration cap into two emitted
utterances, while the spec-side count of qualifying speech runs is 1. -/
theorem utterance_count_cex :
    (processFrames pC7 initSeg streamC7).emitted.length = 2 ∧
    specUtteranceCount pC7.min_speech_frames pC7.hangover_frames
      pC7.max_utt_frames (streamC7.map (isSpeech pC7.vad_rms_threshold)) = 1 := by
  constructor <;> with_unfolding_all decide

/-- C5: at every Idle-to-Accumulating transition (the consecutive-speech
counter reaching the configured minimum on a speech frame), the new
utterance's frames are exactly the preroll ring contents with the current
frame appended into the ring: the last `preroll_frames` of
`preroll ++ [frame]`; when the ring still has room for the frame, that is
literally the previous preroll contents followed by the current frame, so an
utterance's leading frames equal the frames immediately preceding detected
onset, up to the configured preroll size. -/
theorem preroll_seed_on_transition (p : Params) (s : SegState) (f : Frame)
    (hidle : s.in_speech = false)
    (hsp : isSpeech p.vad_rms_threshold f = true)
    (hmin : p.min_speech_frames ≤ s.speech_run + 1) :
    (processFrame p s f).speech_frames =
      (s.preroll ++ [f]).drop (s.preroll.length + 1 - p.preroll_frames) ∧
    (s.preroll.length < p.preroll_frames →
      (processFrame p s f).speech_frames = s.preroll ++ [f]) := by
  have h1 : (processFrame p s f).speech_frames
      = ringPush p.preroll_frames s.preroll f := by
    unfold processFrame
    simp [hidle, hsp, hmin]
  constructor
  · rw [h1]; rfl
  · intro hlt
    rw [h1]
    unfold ringPush
    have h0 : s.preroll.length + 1 - p.preroll_frames = 0 := by omega
    rw [h0, List.drop_zero]

/-- Witness for `preroll_seed_on_transition`: a one-frame preroll, a speech
frame, and parameters with minimum speech 1 frame and preroll capacity 10. -/
theorem preroll_seed_on_transition_witness :
    (processFrame pC6 { initSeg with preroll := [silFrame] } spFrame).speech_frames =
      (([silFrame] : List Frame) ++ [spFrame]).drop
        (([silFrame] : List Frame).length + 1 - pC6.preroll_frames) ∧
    (([silFrame] : List Frame).length < pC6.preroll_frames →
      (processFrame pC6 { initSeg with preroll := [silFrame] } spFrame).speech_frames
        = [silFrame] ++ [spFrame]) :=
  preroll_seed_on_transition pC6 { initSeg with preroll := [silFrame] } spFrame
    rfl (by with_unfolding_all decide) (by decide)

/-- One push through `audio_callback` never grows the queue beyond a positive
capacity. -/
theorem audio_callback_length_le (α : Type) (cap : ℤ) (hc : 0 < cap)
    (q : List α) (x : α) (hq : (q.length : ℤ) ≤ cap) :
    ((audio_callback cap false q x).length : ℤ) ≤ cap := by
  unfold audio_callback
  simp only [Bool.false_eq_true, if_false]
  cases hfull : queueFull cap q with
  | true =>
    simp only [hfull, if_true]
    simp only [queueFull, decide_eq_true_eq] at hfull
    simp only [List.length_append, List.length_drop, List.length_singleton]
    omega
  | false =>
    simp only [hfull, Bool.false_eq_true, if_false]
    simp only [queueFull, decide_eq_false_iff_not, not_and, not_le] at hfull
    simp only [List.length_append, List.length_singleton]
    have := hfull hc
    omega

/-- C4: for every sequence of producer pushes and consumer pulls against a
queue of positive configured capacity, the occupancy never exceeds the
capacity; a push is a total function (the producer is never blocked): on a
full queue it drops the oldest entry and appends the new block (which becomes
the newest element), and on a non-full queue it simply appends. -/
theorem ingest_queue_bounded (α : Type) (cap : ℤ) (hc : 0 < cap)
    (ops : List (QOp α)) :
    ((applyQOps cap [] ops).length : ℤ) ≤ cap ∧
    (∀ (q : List α) (x : α), queueFull cap q = true →
      audio_callback cap false q x = q.drop 1 ++ [x] ∧
      (audio_callback cap false q x).getLast? = some x) ∧
    (∀ (q : List α) (x : α), queueFull cap q = false →
      audio_callback cap false q x = q ++ [x]) := by
  refine ⟨?_, ?_, ?_⟩
  · suffices h : ∀ (l : List (QOp α)) (q : List α),
        (q.length : ℤ) ≤ cap → ((applyQOps cap q l).length : ℤ) ≤ cap by
      refine h ops [] ?_
      simp only [List.length_nil, Nat.cast_zero]
      omega
    intro l
    induction l with
    | nil => intro q hq; simpa [applyQOps] using hq
    | cons op rest ih =>
      intro q hq
      cases op with
      | push x =>
        have hstep : applyQOps cap q (QOp.push x :: rest)
            = applyQOps cap (audio_callback cap false q x) rest := rfl
        rw [hstep]
        exact ih _ (audio_callback_length_le α cap hc q x hq)
      | pull =>
        have hstep : applyQOps cap q (QOp.pull :: rest)
            = applyQOps cap (queuePull q) rest := rfl
        rw [hstep]
        refine ih _ ?_
        unfold queuePull
        simp only [List.length_drop]
        omega
  · intro q x hfull
    unfold audio_callback
    simp only [Bool.false_eq_true, if_false, hfull, if_true]
    exact ⟨trivial, by simp⟩
  · intro q x hnf
    unfold audio_callback
    simp only [Bool.false_eq_true, if_false, hnf]

/-- Witness for `ingest_queue_bounded`: capacity 2 and a concrete run of four
pushes and one pull. -/
theorem ingest_queue_bounded_witness :
    ((applyQOps 2 ([] : List ℕ)
        [QOp.push 1, QOp.push 2, QOp.push 3, QOp.pull, QOp.push 4]).length : ℤ)
      ≤ 2 ∧
    (∀ (q : List ℕ) (x : ℕ), queueFull 2 q = true →
      audio_callback 2 false q x = q.drop 1 ++ [x] ∧
      (audio_callback 2 false q x).getLast? = some x) ∧
    (∀ (q : List ℕ) (x : ℕ), queueFull 2 q = false →
      audio_callback 2 false q x = q ++ [x]) :=
  ingest_queue_bounded ℕ 2 (by decide)
    [QOp.push 1, QOp.push 2, QOp.push 3, QOp.pull, QOp.push 4]

/-- A deque push never grows the ring beyond its capacity. -/
theorem ringPush_length_le (cap : ℕ) (q : List Frame) (x : Frame) :
    (ringPush cap q x).length ≤ cap := by
  unfold ringPush
  simp only [List.length_drop, List.length_append, List.length_singleton]
  omega

/-- One frame of the segmenter preserves the cap invariant. -/

theorem processFrame_idle_nosp (p : Params) (s : SegState) (f : Frame)
    (hin : s.in_speech = false)
    (hsp : isSpeech p.vad_rms_threshold f = false) :
    processFrame p s f
      = { s with preroll := ringPush p.preroll_frames s.preroll f,
                 speech_run := 0 } := by
  unfold processFrame
  simp [hin, hsp]

theorem processFrame_idle_sp_low (p : Params) (s : SegState) (f : Frame)
    (hin : s.in_speech = false)
    (hsp : isSpeech p.vad_rms_threshold f = true)
    (hlow : s.speech_run + 1 < p.min_speech_frames) :
    processFrame p s f
      = { s with preroll := ringPush p.preroll_frames s.preroll f,
                 speech_run := s.speech_run + 1 } := by
  unfold processFrame
  simp [hin, hsp, Nat.not_le.mpr hlow]

theorem processFrame_idle_sp_tr (p : Params) (s : SegState) (f : Frame)
    (hin : s.in_speech = false)
    (hsp : isSpeech p.vad_rms_threshold f = true)
    (hge : p.min_speech_frames ≤ s.speech_run + 1) :
    processFrame p s f
      = { s with preroll := ringPush p.preroll_frames s.preroll f,
                 speech_run := s.speech_run + 1, in_speech := true,
                 silence_run := 0,
                 speech_frames := ringPush p.preroll_frames s.preroll f } := by
  unfold processFrame
  simp [hin, hsp, hge]

theorem processFrame_acc_emit (p : Params) (s : SegState) (f : Frame)
    (hin : s.in_speech = true)
    (htrig : p.hangover_frames ≤
        (if isSpeech p.vad_rms_threshold f then 0 else s.silence_run + 1) ∨
      p.max_utt_frames ≤ (((s.speech_frames ++ [f]).length : ℕ) : ℤ)) :
    processFrame p s f
      = { preroll := [], in_speech := false, speech_frames := [],
          speech_run := 0, silence_run := 0, seq := s.seq + 1,
          emitted := s.emitted ++ [(s.seq, s.speech_frames ++ [f])] } := by
  unfold processFrame
  simp only [hin, Bool.true_eq_false, if_false]
  rw [if_pos htrig]

theorem processFrame_acc_cont (p : Params) (s : SegState) (f : Frame)
    (hin : s.in_speech = true)
    (hno : ¬(p.hangover_frames ≤
        (if isSpeech p.vad_rms_threshold f then 0 else s.silence_run + 1) ∨
      p.max_utt_frames ≤ (((s.speech_frames ++ [f]).length : ℕ) : ℤ))) :
    processFrame p s f
      = { s with preroll := ringPush p.preroll_frames s.preroll f,
                 speech_frames := s.speech_frames ++ [f],
                 silence_run :=
                   if isSpeech p.vad_rms_threshold f then 0
                   else s.silence_run + 1 } := by
  unfold processFrame
  simp only [hin, Bool.true_eq_false, if_false]
  rw [if_neg hno]

theorem capInv_step (p : Params) (hcm : (p.preroll_frames : ℤ) < p.max_utt_frames)
    (s : SegState) (f : Frame) (h : CapInv p s) :
    CapInv p (processFrame p s f) := by
  obtain ⟨h1, h2, h3, h4⟩ := h
  cases hin : s.in_speech with
  | false =>
    cases hsp : isSpeech p.vad_rms_threshold f with
    | false =>
      rw [processFrame_idle_nosp p s f hin hsp]
      refine ⟨ringPush_length_le _ _ _, fun _ => h2 hin, ?_, h4⟩
      intro hcontra
      simp [hin] at hcontra
    | true =>
      by_cases hge : p.min_speech_frames ≤ s.speech_run + 1
      · rw [processFrame_idle_sp_tr p s f hin hsp hge]
        refine ⟨ringPush_length_le _ _ _, ?_, ?_, h4⟩
        · intro hcontra; cases hcontra
        · intro _
          show ((ringPush p.preroll_frames s.preroll f).length : ℤ) < p.max_utt_frames
          have hr := ringPush_length_le p.preroll_frames s.preroll f
          omega
      · rw [processFrame_idle_sp_low p s f hin hsp (Nat.not_le.mp hge)]
        refine ⟨ringPush_length_le _ _ _, fun _ => h2 hin, ?_, h4⟩
        intro hcontra
        simp [hin] at hcontra
  | true =>
    by_cases htrig : (p.hangover_frames ≤
        (if isSpeech p.vad_rms_threshold f then 0 else s.silence_run + 1) ∨
      p.max_utt_frames ≤ (((s.speech_frames ++ [f]).length : ℕ) : ℤ))
    · rw [processFrame_acc_emit p s f hin htrig]
      refine ⟨by simp, fun _ => rfl, ?_, ?_⟩
      · intro hcontra; cases hcontra
      · intro u hu
        rcases List.mem_append.mp hu with hold | hnew
        · exact h4 u hold
        · simp only [List.mem_singleton] at hnew
          subst hnew
          have h5 := h3 hin
          show (((s.speech_frames ++ [f]).length : ℕ) : ℤ) ≤ p.max_utt_frames
          simp only [List.length_append, List.length_singleton]
          push_cast
          omega
    · rw [processFrame_acc_cont p s f hin htrig]
      refine ⟨ringPush_length_le _ _ _, ?_, ?_, h4⟩
      · intro hcontra; simp [hin] at hcontra
      · intro _
        rw [not_or] at htrig
        have h5 := htrig.2
        rw [not_le] at h5
        show (((s.speech_frames ++ [f]).length : ℕ) : ℤ) < p.max_utt_frames
        omega

/-- The cap invariant is preserved along any frame sequence. -/
theorem seg_cap_fold (p : Params) (hcm : (p.preroll_frames : ℤ) < p.max_utt_frames)
    (fs : List Frame) : ∀ s : SegState, CapInv p s → CapInv p (processFrames p s fs) := by
  induction fs with
  | nil => intro s h; exact h
  | cons f rest ih =>
    intro s h
    exact ih (processFrame p s f) (capInv_step p hcm s f h)

/-- C6 amended: provided the preroll capacity is smaller than the maximum
utterance frame count (true of the default configuration: 10 < 600), no
utterance handed to the dispatcher contains more frames than the configured
maximum.  (Without that proviso the bound fails: see the counterexample where
the preroll seed alone exceeds the cap.) -/
theorem utterance_within_cap (p : Params)
    (hcm : (p.preroll_frames : ℤ) < p.max_utt_frames) (fs : List Frame) :
    ∀ u ∈ (processFrames p initSeg fs).emitted,
      ((u.2 : List Frame).length : ℤ) ≤ p.max_utt_frames := by
  have hinit : CapInv p initSeg := by
    refine ⟨by simp [initSeg], fun _ => rfl, ?_, by simp [initSeg]⟩
    intro hcontra
    simp [initSeg] at hcontra
  exact (seg_cap_fold p hcm fs initSeg hinit).2.2.2

/-- Witness for `utterance_within_cap`: the parameters `pC3`
(preroll 1 < cap 100) on three speech frames followed by ten silent frames
emit the single 13-frame utterance
`(0, replicate 3 spFrame ++ replicate 10 silFrame)`, which is within the
100-frame cap. -/
theorem utterance_within_cap_witness :
    ((List.replicate 3 spFrame ++ List.replicate 10 silFrame
        : List Frame).length : ℤ) ≤ pC3.max_utt_frames :=
  utterance_within_cap pC3 (by decide)
    (List.replicate 3 spFrame ++ List.replicate 10 silFrame)
    (0, List.replicate 3 spFrame ++ List.replicate 10 silFrame)
    (by with_unfolding_all decide)

theorem processFrames_nil (p : Params) (s : SegState) : processFrames p s [] = s := rfl

theorem processFrames_cons (p : Params) (s : SegState) (f : Frame) (l : List Frame) :
    processFrames p s (f :: l) = processFrames p (processFrame p s f) l := rfl

theorem processFrames_append (p : Params) (s : SegState) (a b : List Frame) :
    processFrames p s (a ++ b) = processFrames p (processFrames p s a) b := by
  simp [processFrames, List.foldl_append]

/-- Folding deque pushes never grows the ring beyond its capacity. -/
theorem ring_fold_le (cap : ℕ) (fs : List Frame) :
    ∀ q : List Frame, q.length ≤ cap →
      (fs.foldl (fun q f => ringPush cap q f) q).length ≤ cap := by
  induction fs with
  | nil => intro q hq; exact hq
  | cons f rest ih =>
    intro q hq
    simp only [List.foldl_cons]
    exact ih _ (ringPush_length_le cap q f)

/-- Silence while Idle: the preroll keeps rolling, the speech-run counter is
reset (if any frame arrives), and nothing else changes. -/
theorem seg_idle_silence (p : Params) (fs : List Frame)
    (hfs : ∀ f ∈ fs, isSpeech p.vad_rms_threshold f = false) :
    ∀ s : SegState, s.in_speech = false →
    processFrames p s fs
      = { s with
          preroll := fs.foldl (fun q f => ringPush p.preroll_frames q f) s.preroll,
          speech_run := if fs.isEmpty then s.speech_run else 0 } := by
  induction fs with
  | nil => intro s _; simp [processFrames]
  | cons f rest ih =>
    intro s hin
    rw [processFrames_cons, processFrame_idle_nosp p s f hin (hfs f (by simp))]
    rw [ih (fun g hg => hfs g (by simp [hg]))
      { s with preroll := ringPush p.preroll_frames s.preroll f, speech_run := 0 } hin]
    cases rest <;> simp

/-- Speech while Idle, staying below the minimum-speech threshold: the
speech-run counter counts up and nothing else changes. -/
theorem seg_idle_speech_short (p : Params) (fs : List Frame)
    (hfs : ∀ f ∈ fs, isSpeech p.vad_rms_threshold f = true) :
    ∀ s : SegState, s.in_speech = false →
      s.speech_run + fs.length < p.min_speech_frames →
    processFrames p s fs
      = { s with
          preroll := fs.foldl (fun q f => ringPush p.preroll_frames q f) s.preroll,
          speech_run := s.speech_run + fs.length } := by
  induction fs with
  | nil => intro s _ _; simp [processFrames]
  | cons f rest ih =>
    intro s hin hlt
    rw [processFrames_cons, processFrame_idle_sp_low p s f hin (hfs f (by simp))
      (by simp only [List.length_cons] at hlt; omega)]
    rw [ih (fun g hg => hfs g (by simp [hg]))
      { s with preroll := ringPush p.preroll_frames s.preroll f,
               speech_run := s.speech_run + 1 } hin
      (by simp only [List.length_cons] at hlt ⊢; omega)]
    simp only [List.foldl_cons, List.length_cons]
    congr 1
    omega

/-- Speech while Accumulating, staying below the duration cap: every frame is
appended, the silence-run counter is reset (if any frame arrives). -/
theorem seg_acc_speech (p : Params) (hhang : 1 ≤ p.hangover_frames)
    (fs : List Frame)
    (hfs : ∀ f ∈ fs, isSpeech p.vad_rms_threshold f = true) :
    ∀ s : SegState, s.in_speech = true →
      ((s.speech_frames.length + fs.length : ℕ) : ℤ) < p.max_utt_frames →
    processFrames p s fs
      = { s with
          preroll := fs.foldl (fun q f => ringPush p.preroll_frames q f) s.preroll,
          speech_frames := s.speech_frames ++ fs,
          silence_run := if fs.isEmpty then s.silence_run else 0 } := by
  induction fs with
  | nil => intro s _ _; simp [processFrames]
  | cons f rest ih =>
    intro s hin hlen
    have hf := hfs f (by simp)
    have hno : ¬(p.hangover_frames ≤
        (if isSpeech p.vad_rms_threshold f then 0 else s.silence_run + 1) ∨
      p.max_utt_frames ≤ (((s.speech_frames ++ [f]).length : ℕ) : ℤ)) := by
      rw [hf]
      simp only [if_true, List.length_append, List.length_singleton, not_or, not_le]
      constructor
      · omega
      · simp only [List.length_cons] at hlen
        push_cast at hlen ⊢
        omega
    have hlen2 : (((s.speech_frames ++ [f]).length + rest.length : ℕ) : ℤ)
        < p.max_utt_frames := by
      push_cast [List.length_append, List.length_singleton, List.length_cons,
        List.length_nil] at hlen ⊢
      omega
    rw [processFrames_cons, processFrame_acc_cont p s f hin hno]
    simp only [hf, if_true]
    rw [ih (fun g hg => hfs g (by simp [hg]))
      { s with preroll := ringPush p.preroll_frames s.preroll f,
               speech_frames := s.speech_frames ++ [f],
               silence_run := 0 } hin hlen2]
    cases rest <;> simp

/-- Silence while Accumulating, staying below both the hangover and the cap:
every frame is appended and the silence-run counter counts up. -/
theorem seg_acc_silence_short (p : Params) (fs : List Frame)
    (hfs : ∀ f ∈ fs, isSpeech p.vad_rms_threshold f = false) :
    ∀ s : SegState, s.in_speech = true →
      s.silence_run + fs.length < p.hangover_frames →
      ((s.speech_frames.length + fs.length : ℕ) : ℤ) < p.max_utt_frames →
    processFrames p s fs
      = { s with
          preroll := fs.foldl (fun q f => ringPush p.preroll_frames q f) s.preroll,
          speech_frames := s.speech_frames ++ fs,
          silence_run := s.silence_run + fs.length } := by
  induction fs with
  | nil => intro s _ _ _; simp [processFrames]
  | cons f rest ih =>
    intro s hin hsil hlen
    have hf := hfs f (by simp)
    have hno : ¬(p.hangover_frames ≤
        (if isSpeech p.vad_rms_threshold f then 0 else s.silence_run + 1) ∨
      p.max_utt_frames ≤ (((s.speech_frames ++ [f]).length : ℕ) : ℤ)) := by
      rw [hf]
      simp only [Bool.false_eq_true, if_false, List.length_append,
        List.length_singleton, not_or, not_le]
      constructor
      · simp only [List.length_cons] at hsil; omega
      · simp only [List.length_cons] at hlen
        push_cast at hlen ⊢
        omega
    have hsil2 : s.silence_run + 1 + rest.length < p.hangover_frames := by
      simp only [List.length_cons] at hsil
      omega
    have hlen2 : (((s.speech_frames ++ [f]).length + rest.length : ℕ) : ℤ)
        < p.max_utt_frames := by
      push_cast [List.length_append, List.length_singleton, List.length_cons,
        List.length_nil] at hlen ⊢
      omega
    rw [processFrames_cons, processFrame_acc_cont p s f hin hno]
    simp only [hf, Bool.false_eq_true, if_false]
    rw [ih (fun g hg => hfs g (by simp [hg]))
      { s with preroll := ringPush p.preroll_frames s.preroll f,
               speech_frames := s.speech_frames ++ [f],
               silence_run := s.silence_run + 1 } hin hsil2 hlen2]
    simp only [List.foldl_cons, List.length_cons, List.append_assoc,
      List.singleton_append]
    congr 1
    omega

/-- One speech-then-silence block, starting from a canonical Idle state,
emits exactly one utterance when the speech run reaches the minimum-speech
threshold (and cannot reach the cap), none otherwise, and returns to a
canonical Idle state. -/
theorem seg_block (p : Params) (hmin1 : 1 ≤ p.min_speech_frames)
    (hhang1 : 1 ≤ p.hangover_frames) (sp sl : List Frame)
    (hsp : ∀ f ∈ sp, isSpeech p.vad_rms_threshold f = true)
    (hsl : ∀ f ∈ sl, isSpeech p.vad_rms_threshold f = false)
    (hslen : p.hangover_frames ≤ sl.length)
    (hcap : p.min_speech_frames ≤ sp.length →
      (p.preroll_frames : ℤ) + (sp.length : ℤ) - (p.min_speech_frames : ℤ)
        + (p.hangover_frames : ℤ) ≤ p.max_utt_frames)
    (s : SegState) (hin : s.in_speech = false) (hrun : s.speech_run = 0)
    (hsf : s.speech_frames = []) (hpre : s.preroll.length ≤ p.preroll_frames) :
    ∃ t : SegState, processFrames p s (sp ++ sl) = t ∧ t.in_speech = false ∧
      t.speech_run = 0 ∧ t.speech_frames = [] ∧
      t.preroll.length ≤ p.preroll_frames ∧
      t.emitted.length = s.emitted.length
        + (if p.min_speech_frames ≤ sp.length then 1 else 0) := by
  have hslne : sl.isEmpty = false := by
    cases sl with
    | nil => simp at hslen; omega
    | cons a b => rfl
  by_cases hms : p.min_speech_frames ≤ sp.length
  · -- the speech run triggers an utterance
    obtain ⟨f0, rest, hspr⟩ : ∃ f0 rest,
        sp.drop (p.min_speech_frames - 1) = f0 :: rest := by
      cases hd : sp.drop (p.min_speech_frames - 1) with
      | nil =>
        exfalso
        have hlen := List.length_drop (p.min_speech_frames - 1) sp
        rw [hd] at hlen
        simp at hlen
        omega
      | cons a b => exact ⟨a, b, rfl⟩
    obtain ⟨f1, rest2, hslr⟩ : ∃ f1 rest2,
        sl.drop (p.hangover_frames - 1) = f1 :: rest2 := by
      cases hd : sl.drop (p.hangover_frames - 1) with
      | nil =>
        exfalso
        have hlen := List.length_drop (p.hangover_frames - 1) sl
        rw [hd] at hlen
        simp at hlen
        omega
      | cons a b => exact ⟨a, b, rfl⟩
    have hsp1len : (sp.take (p.min_speech_frames - 1)).length
        = p.min_speech_frames - 1 := by
      rw [List.length_take]; omega
    have hsl1len : (sl.take (p.hangover_frames - 1)).length
        = p.hangover_frames - 1 := by
      rw [List.length_take]; omega
    have hrestlen : rest.length = sp.length - p.min_speech_frames := by
      have h := List.length_drop (p.min_speech_frames - 1) sp
      rw [hspr] at h
      simp only [List.length_cons] at h
      omega
    have hsp1_sp : ∀ g ∈ sp.take (p.min_speech_frames - 1),
        isSpeech p.vad_rms_threshold g = true :=
      fun g hg => hsp g (List.take_subset _ _ hg)
    have hf0 : isSpeech p.vad_rms_threshold f0 = true :=
      hsp f0 (List.drop_subset _ _ (by rw [hspr]; exact List.mem_cons_self _ _))
    have hrest_sp : ∀ g ∈ rest, isSpeech p.vad_rms_threshold g = true :=
      fun g hg => hsp g (List.drop_subset _ _
        (by rw [hspr]; exact List.mem_cons_of_mem _ hg))
    have hsl1_sl : ∀ g ∈ sl.take (p.hangover_frames - 1),
        isSpeech p.vad_rms_threshold g = false :=
      fun g hg => hsl g (List.take_subset _ _ hg)
    have hf1 : isSpeech p.vad_rms_threshold f1 = false :=
      hsl f1 (List.drop_subset _ _ (by rw [hslr]; exact List.mem_cons_self _ _))
    have hrest2_sl : ∀ g ∈ rest2, isSpeech p.vad_rms_threshold g = false :=
      fun g hg => hsl g (List.drop_subset _ _
        (by rw [hslr]; exact List.mem_cons_of_mem _ hg))
    have hstream : sp ++ sl
        = sp.take (p.min_speech_frames - 1)
          ++ (f0 :: (rest ++ (sl.take (p.hangover_frames - 1)
            ++ (f1 :: rest2)))) := by
      conv_lhs =>
        rw [← List.take_append_drop (p.min_speech_frames - 1) sp,
          ← List.take_append_drop (p.hangover_frames - 1) sl]
      rw [hspr, hslr]
      simp [List.append_assoc]
    rw [hstream, processFrames_append]
    rw [seg_idle_speech_short p _ hsp1_sp s hin
      (by rw [hsp1len, hrun]; omega)]
    rw [processFrames_cons]
    rw [processFrame_idle_sp_tr p
      { s with preroll := (sp.take (p.min_speech_frames - 1)).foldl
                 (fun q f => ringPush p.preroll_frames q f) s.preroll,
               speech_run := s.speech_run
                 + (sp.take (p.min_speech_frames - 1)).length }
      f0 hin hf0
      (by show p.min_speech_frames ≤ s.speech_run
            + (sp.take (p.min_speech_frames - 1)).length + 1
          rw [hsp1len, hrun]; omega)]
    rw [processFrames_append]
    have hR : (ringPush p.preroll_frames
        ((sp.take (p.min_speech_frames - 1)).foldl
          (fun q f => ringPush p.preroll_frames q f) s.preroll) f0).length
        ≤ p.preroll_frames := ringPush_length_le _ _ _
    have hcap2 := hcap hms
    rw [seg_acc_speech p hhang1 rest hrest_sp
      { preroll := ringPush p.preroll_frames
          ((sp.take (p.min_speech_frames - 1)).foldl
            (fun q f => ringPush p.preroll_frames q f) s.preroll) f0,
        in_speech := true,
        speech_frames := ringPush p.preroll_frames
          ((sp.take (p.min_speech_frames - 1)).foldl
            (fun q f => ringPush p.preroll_frames q f) s.preroll) f0,
        speech_run := s.speech_run
          + (sp.take (p.min_speech_frames - 1)).length + 1,
        silence_run := 0, seq := s.seq, emitted := s.emitted }
      rfl
      (by push_cast
          omega)]
    simp only [ite_self]
    rw [processFrames_append]
    rw [seg_acc_silence_short p _ hsl1_sl
      { preroll := rest.foldl (fun q f => ringPush p.preroll_frames q f)
          (ringPush p.preroll_frames
            ((sp.take (p.min_speech_frames - 1)).foldl
              (fun q f => ringPush p.preroll_frames q f) s.preroll) f0),
        in_speech := true,
        speech_frames := ringPush p.preroll_frames
          ((sp.take (p.min_speech_frames - 1)).foldl
            (fun q f => ringPush p.preroll_frames q f) s.preroll) f0 ++ rest,
        speech_run := s.speech_run
          + (sp.take (p.min_speech_frames - 1)).length + 1,
        silence_run := 0, seq := s.seq, emitted := s.emitted }
      rfl
      (by show (0 : ℕ) + (sl.take (p.hangover_frames - 1)).length
            < p.hangover_frames
          rw [hsl1len]; omega)
      (by show (((ringPush p.preroll_frames
              ((sp.take (p.min_speech_frames - 1)).foldl
                (fun q f => ringPush p.preroll_frames q f) s.preroll) f0
              ++ rest).length
            + (sl.take (p.hangover_frames - 1)).length : ℕ) : ℤ)
            < p.max_utt_frames
          push_cast [List.length_append]
          rw [hsl1len]
          omega)]
    rw [processFrames_cons]
    rw [processFrame_acc_emit p
      { preroll := (sl.take (p.hangover_frames - 1)).foldl
          (fun q f => ringPush p.preroll_frames q f)
          (rest.foldl (fun q f => ringPush p.preroll_frames q f)
            (ringPush p.preroll_frames
              ((sp.take (p.min_speech_frames - 1)).foldl
                (fun q f => ringPush p.preroll_frames q f) s.preroll) f0)),
        in_speech := true,
        speech_frames := (ringPush p.preroll_frames
          ((sp.take (p.min_speech_frames - 1)).foldl
            (fun q f => ringPush p.preroll_frames q f) s.preroll) f0 ++ rest)
          ++ sl.take (p.hangover_frames - 1),
        speech_run := s.speech_run
          + (sp.take (p.min_speech_frames - 1)).length + 1,
        silence_run := 0 + (sl.take (p.hangover_frames - 1)).length,
        seq := s.seq, emitted := s.emitted }
      f1 rfl
      (by rw [hf1]
          simp only [Bool.false_eq_true, if_false]
          refine Or.inl ?_
          show p.hangover_frames
            ≤ 0 + (sl.take (p.hangover_frames - 1)).length + 1
          rw [hsl1len]; omega)]
    rw [seg_idle_silence p rest2 hrest2_sl _ rfl]
    refine ⟨_, rfl, rfl, by simp, rfl, ?_, ?_⟩
    · exact ring_fold_le _ _ _ (by simp)
    · simp [hms]
  · -- the speech run stays below the threshold: no utterance
    rw [processFrames_append]
    rw [seg_idle_speech_short p sp hsp s hin (by omega)]
    rw [seg_idle_silence p sl hsl
      { s with preroll := sp.foldl (fun q f => ringPush p.preroll_frames q f)
                 s.preroll,
               speech_run := s.speech_run + sp.length } hin]
    refine ⟨_, rfl, hin, ?_, hsf, ?_, ?_⟩
    · rw [hslne]; rfl
    · exact ring_fold_le _ _ _ (ring_fold_le _ _ _ hpre)
    · simp [hms]

/-- Folding `seg_block` over a list of speech/silence blocks counts one
utterance per block whose speech run reaches the minimum-speech threshold. -/
theorem seg_blocks (p : Params) (hmin1 : 1 ≤ p.min_speech_frames)
    (hhang1 : 1 ≤ p.hangover_frames) (bs : List (List Frame × List Frame))
    (hbs : ∀ b ∈ bs, (∀ f ∈ b.1, isSpeech p.vad_rms_threshold f = true) ∧
        (∀ f ∈ b.2, isSpeech p.vad_rms_threshold f = false) ∧
        p.hangover_frames ≤ b.2.length ∧
        (p.min_speech_frames ≤ b.1.length →
          (p.preroll_frames : ℤ) + (b.1.length : ℤ) - (p.min_speech_frames : ℤ)
            + (p.hangover_frames : ℤ) ≤ p.max_utt_frames)) :
    ∀ s : SegState, s.in_speech = false → s.speech_run = 0 →
      s.speech_frames = [] → s.preroll.length ≤ p.preroll_frames →
      (processFrames p s ((bs.map (fun b => b.1 ++ b.2)).flatten)).emitted.length
        = s.emitted.length
          + bs.countP (fun b => decide (p.min_speech_frames ≤ b.1.length)) := by
  induction bs with
  | nil => intro s _ _ _ _; simp [processFrames]
  | cons b rest ih =>
    intro s hin hrun hsf hpre
    obtain ⟨h1, h2, h3, h4⟩ := hbs b (by simp)
    obtain ⟨t, ht, htin, htrun, htsf, htpre, htem⟩ :=
      seg_block p hmin1 hhang1 b.1 b.2 h1 h2 h3 h4 s hin hrun hsf hpre
    rw [List.map_cons, List.flatten_cons, processFrames_append, ht]
    rw [ih (fun c hc => hbs c (List.mem_cons_of_mem _ hc)) t htin htrun htsf
      htpre]
    rw [htem, List.countP_cons]
    by_cases hb : p.min_speech_frames ≤ b.1.length
    · simp [hb]; omega
    · simp [hb]

/-- C7 amended: (1) an all-silence stream yields zero utterances; (2) for a
stream decomposed into blocks of a speech run followed by at least
`hangover_frames` of silence, where every speech run reaching the
minimum-speech threshold is short enough that its utterance cannot hit the
maximum-duration cap (preroll capacity + run length − minimum + hangover ≤
maximum frames), the number of emitted utterances equals the number of speech
runs reaching the minimum-speech threshold.  (Without the no-cap proviso the
count differs: the counterexample shows a single over-long speech run split
into two utterances by the cap.) -/
theorem utterance_count_matches_blocks :
    (∀ (p : Params) (fs : List Frame),
      (∀ f ∈ fs, isSpeech p.vad_rms_threshold f = false) →
      (processFrames p initSeg fs).emitted = []) ∧
    (∀ (p : Params) (bs : List (List Frame × List Frame)),
      1 ≤ p.min_speech_frames → 1 ≤ p.hangover_frames →
      (∀ b ∈ bs, (∀ f ∈ b.1, isSpeech p.vad_rms_threshold f = true) ∧
          (∀ f ∈ b.2, isSpeech p.vad_rms_threshold f = false) ∧
          p.hangover_frames ≤ b.2.length ∧
          (p.min_speech_frames ≤ b.1.length →
            (p.preroll_frames : ℤ) + (b.1.length : ℤ)
              - (p.min_speech_frames : ℤ) + (p.hangover_frames : ℤ)
              ≤ p.max_utt_frames)) →
      (processFrames p initSeg
          ((bs.map (fun b => b.1 ++ b.2)).flatten)).emitted.length
        = bs.countP (fun b => decide (p.min_speech_frames ≤ b.1.length))) := by
  constructor
  · intro p fs hfs
    rw [seg_idle_silence p fs hfs initSeg rfl]
    rfl
  · intro p bs hm hh hbs
    have h := seg_blocks p hm hh bs hbs initSeg rfl rfl rfl (by simp [initSeg])
    simpa [initSeg] using h

/-- Witness for `utterance_count_matches_blocks`: five silent frames emit
nothing; one block of three speech frames and ten silent frames under `pC3`
emits exactly one utterance. -/
theorem utterance_count_matches_blocks_witness :
    ((processFrames pC3 initSeg (List.replicate 5 silFrame)).emitted = []) ∧
    ((processFrames pC3 initSeg
        (([(List.replicate 3 spFrame, List.replicate 10 silFrame)].map
          (fun b => b.1 ++ b.2)).flatten)).emitted.length
      = [(List.replicate 3 spFrame, List.replicate 10 silFrame)].countP
          (fun b => decide (pC3.min_speech_frames ≤ b.1.length))) :=
  ⟨utterance_count_matches_blocks.1 pC3 (List.replicate 5 silFrame)
    (fun f hf => by rw [List.eq_of_mem_replicate hf]; with_unfolding_all decide),
   utterance_count_matches_blocks.2 pC3
    [(List.replicate 3 spFrame, List.replicate 10 silFrame)]
    (by decide) (by decide)
    (by intro b hb
        simp only [List.mem_singleton] at hb
        subst hb
        refine ⟨?_, ?_, by simp [pC3], ?_⟩
        · intro f hf
          rw [List.eq_of_mem_replicate hf]
          with_unfolding_all decide
        · intro f hf
          rw [List.eq_of_mem_replicate hf]
          with_unfolding_all decide
        · intro _
          with_unfolding_all decide)⟩

theorem lookupKey_eq_none {α : Type} (k : ℕ) (m : List (ℕ × α)) :
    lookupKey k m = none ↔ k ∉ m.map Prod.fst := by
  induction m with
  | nil => simp [lookupKey]
  | cons a l ih =>
    rcases eq_or_ne a.1 k with h | h
    · simp [lookupKey, h]
    · simp [lookupKey, h, ih, Ne.symm h]

theorem eraseKey_sublist {α : Type} (k : ℕ) (m : List (ℕ × α)) :
    (eraseKey k m).Sublist m := by
  induction m with
  | nil => simp [eraseKey]
  | cons a l ih =>
    simp only [eraseKey]
    split
    · exact List.sublist_cons_self a l
    · exact ih.cons₂ a

theorem keys_perm_of_lookup {α : Type} (k : ℕ) (v : α) (m : List (ℕ × α))
    (h : lookupKey k m = some v) :
    (m.map Prod.fst).Perm (k :: (eraseKey k m).map Prod.fst) := by
  induction m with
  | nil => simp [lookupKey] at h
  | cons a l ih =>
    simp only [lookupKey] at h
    by_cases ha : a.1 = k
    · rw [if_pos ha] at h
      simp only [eraseKey, if_pos ha, List.map_cons, ha]
      exact List.Perm.refl _
    · rw [if_neg ha] at h
      simp only [eraseKey, if_neg ha, List.map_cons]
      exact ((ih h).cons a.1).trans (List.Perm.swap k a.1 _)

theorem length_eraseKey {α : Type} (k : ℕ) (v : α) (m : List (ℕ × α))
    (h : lookupKey k m = some v) :
    (eraseKey k m).length + 1 = m.length := by
  induction m with
  | nil => simp [lookupKey] at h
  | cons a l ih =>
    simp only [lookupKey] at h
    by_cases ha : a.1 = k
    · simp [eraseKey, ha]
    · rw [if_neg ha] at h
      simp only [eraseKey, if_neg ha, List.length_cons]
      rw [← ih h]

/-- Specification of the fueled drain loop (with enough fuel): the emitted
list stays exactly `0, 1, ..., next-1`; draining moves entries from the
results dict to the output, preserving the multiset of keys; afterwards the
next expected sequence is absent from the dict; key-distinctness is
preserved. -/
theorem drainAux_spec {α : Type} (fuel : ℕ) :
    ∀ s : SeqState α, s.results.length ≤ fuel →
      ((s.results.map Prod.fst).Nodup) →
      s.out.map Prod.fst = List.range s.next →
      ((drainAux α fuel s).out.map Prod.fst
          = List.range (drainAux α fuel s).next) ∧
      ((drainAux α fuel s).out.map Prod.fst
          ++ (drainAux α fuel s).results.map Prod.fst).Perm
        (s.out.map Prod.fst ++ s.results.map Prod.fst) ∧
      lookupKey (drainAux α fuel s).next (drainAux α fuel s).results = none ∧
      ((drainAux α fuel s).results.map Prod.fst).Nodup := by
  induction fuel with
  | zero =>
    intro s hlen hnod hout
    have hnil : s.results = [] := List.length_eq_zero.mp (Nat.le_zero.mp hlen)
    refine ⟨hout, List.Perm.refl _, ?_, hnod⟩
    show lookupKey s.next s.results = none
    rw [hnil]
    rfl
  | succ n ih =>
    intro s hlen hnod hout
    cases hlk : lookupKey s.next s.results with
    | none =>
      have hid : drainAux α (n + 1) s = s := by simp [drainAux, hlk]
      rw [hid]
      exact ⟨hout, List.Perm.refl _, hlk, hnod⟩
    | some r =>
      have hstep : drainAux α (n + 1) s = drainAux α n
          { next := s.next + 1, results := eraseKey s.next s.results,
            out := s.out ++ [(s.next, r)] } := by
        simp [drainAux, hlk]
      rw [hstep]
      have hperm := keys_perm_of_lookup s.next r s.results hlk
      have hlen2 : (eraseKey s.next s.results).length ≤ n := by
        have := length_eraseKey s.next r s.results hlk
        omega
      have hnod2 : ((eraseKey s.next s.results).map Prod.fst).Nodup :=
        hnod.sublist ((eraseKey_sublist s.next s.results).map Prod.fst)
      have hout2 : (s.out ++ [(s.next, r)]).map Prod.fst
          = List.range (s.next + 1) := by
        simp [hout, List.range_succ]
      obtain ⟨o1, o2, o3, o4⟩ := ih
        { next := s.next + 1, results := eraseKey s.next s.results,
          out := s.out ++ [(s.next, r)] } hlen2 hnod2 hout2
      refine ⟨o1, ?_, o3, o4⟩
      refine o2.trans ?_
      simp only [List.map_append, List.map_cons, List.map_nil]
      rw [List.append_assoc]
      exact List.Perm.append_left _ (by simpa using hperm.symm)

/-- Specification of the sequencer over a whole completion order: the output
is always the initial segment `0, ..., next-1`, the keys of output and buffer
together are exactly the keys inserted so far, and the buffer never holds the
next expected sequence after a drain. -/
theorem runCompletions_spec {α : Type} (l : List (ℕ × α)) :
    ∀ s : SeqState α,
      s.out.map Prod.fst = List.range s.next →
      ((s.results.map Prod.fst).Nodup) →
      lookupKey s.next s.results = none →
      ((l.map Prod.fst ++ (s.out.map Prod.fst ++ s.results.map Prod.fst)).Nodup) →
      ((runCompletions s l).out.map Prod.fst
          = List.range (runCompletions s l).next) ∧
      ((runCompletions s l).out.map Prod.fst
          ++ (runCompletions s l).results.map Prod.fst).Perm
        (l.map Prod.fst ++ (s.out.map Prod.fst ++ s.results.map Prod.fst)) ∧
      lookupKey (runCompletions s l).next (runCompletions s l).results = none ∧
      ((runCompletions s l).results.map Prod.fst).Nodup := by
  induction l with
  | nil =>
    intro s h1 h2 h3 _
    exact ⟨h1, by simp [runCompletions], h3, h2⟩
  | cons kv rest ih =>
    intro s h1 h2 h3 h4
    have hfresh : kv.1 ∉ s.out.map Prod.fst ++ s.results.map Prod.fst := by
      simp only [List.map_cons, List.cons_append, List.nodup_cons] at h4
      intro hmem
      exact h4.1 (List.mem_append_right _ hmem)
    have hnods : ((kv :: s.results).map Prod.fst).Nodup := by
      simp only [List.map_cons, List.nodup_cons]
      exact ⟨fun hmem => hfresh (List.mem_append_right _ hmem), h2⟩
    obtain ⟨d1, d2, d3, d4⟩ := drainAux_spec (kv :: s.results).length
      { s with results := kv :: s.results } (le_refl _) hnods h1
    have hstep : runCompletions s (kv :: rest)
        = runCompletions (insertThenDrain s kv) rest := rfl
    have hP : ((insertThenDrain s kv).out.map Prod.fst
        ++ (insertThenDrain s kv).results.map Prod.fst).Perm
        (kv.1 :: (s.out.map Prod.fst ++ s.results.map Prod.fst)) := by
      refine d2.trans ?_
      simp only [List.map_cons]
      exact List.perm_middle
    have hnod4 : ((rest.map Prod.fst ++ ((insertThenDrain s kv).out.map Prod.fst
        ++ (insertThenDrain s kv).results.map Prod.fst))).Nodup := by
      have hbig : (rest.map Prod.fst ++ ((insertThenDrain s kv).out.map Prod.fst
          ++ (insertThenDrain s kv).results.map Prod.fst)).Perm
          ((kv :: rest).map Prod.fst
            ++ (s.out.map Prod.fst ++ s.results.map Prod.fst)) := by
        refine (List.Perm.append_left _ hP).trans ?_
        simp only [List.map_cons, List.cons_append]
        exact List.perm_middle
      exact hbig.symm.nodup h4
    obtain ⟨r1, r2, r3, r4⟩ := ih (insertThenDrain s kv) d1 d4 d3 hnod4
    rw [hstep]
    refine ⟨r1, ?_, r3, r4⟩
    refine r2.trans ?_
    refine (List.Perm.append_left _ hP).trans ?_
    simp only [List.map_cons, List.cons_append]
    exact List.perm_middle

/-- C1: submit N utterance results with sequence numbers 0..N-1 in any
completion order (any permutation), the printer draining after each
completion.  The sequencer hands the results to the sink exactly in order
0, 1, ..., N-1, each exactly once; moreover after any prefix of the
completion order the output is an initial segment 0, ..., k-1 with k ≤ N, so
the result for sequence k+1 is never emitted before the result for
sequence k. -/
theorem printer_emits_in_order (N : ℕ) (R : Type) (f : ℕ → R) (perm : List ℕ)
    (hperm : perm.Perm (List.range N)) :
    ((runCompletions { next := 0, results := [], out := [] }
        (perm.map (fun k => (k, f k)))).out.map Prod.fst = List.range N) ∧
    (∀ pre suf : List ℕ, perm = pre ++ suf →
      ∃ k, k ≤ N ∧
        (runCompletions { next := 0, results := [], out := [] }
          (pre.map (fun q => (q, f q)))).out.map Prod.fst = List.range k) := by
  have hpermnodup : perm.Nodup := hperm.symm.nodup (List.nodup_range N)
  have hlenperm : perm.length = N := by
    have := hperm.length_eq
    simpa using this
  have hmapfst : ∀ (l : List ℕ),
      (l.map (fun k => (k, f k))).map Prod.fst = l := by
    intro l
    induction l with
    | nil => rfl
    | cons a t iht => simp only [List.map_cons, iht]
  constructor
  · obtain ⟨o1, o2, o3, o4⟩ := runCompletions_spec (perm.map (fun k => (k, f k)))
      { next := 0, results := [], out := [] } rfl (by simp) rfl
      (by simp only [hmapfst, List.map_nil, List.append_nil]
          exact hpermnodup)
    have hbig : (List.range (runCompletions { next := 0, results := [], out := [] }
        (perm.map (fun k => (k, f k)))).next
          ++ (runCompletions { next := 0, results := [], out := [] }
            (perm.map (fun k => (k, f k)))).results.map Prod.fst).Perm
        (List.range N) := by
      refine (o1 ▸ o2).trans ?_
      simp only [hmapfst, List.map_nil, List.append_nil]
      exact hperm
    have hlen : (runCompletions { next := 0, results := [], out := [] }
        (perm.map (fun k => (k, f k)))).next
          + ((runCompletions { next := 0, results := [], out := [] }
            (perm.map (fun k => (k, f k)))).results.map Prod.fst).length = N := by
      have := hbig.length_eq
      simpa using this
    have hnext : (runCompletions { next := 0, results := [], out := [] }
        (perm.map (fun k => (k, f k)))).next = N := by
      by_contra hne
      have hlt : (runCompletions { next := 0, results := [], out := [] }
          (perm.map (fun k => (k, f k)))).next < N := by omega
      have hmem : (runCompletions { next := 0, results := [], out := [] }
          (perm.map (fun k => (k, f k)))).next
          ∈ List.range (runCompletions { next := 0, results := [], out := [] }
              (perm.map (fun k => (k, f k)))).next
            ++ (runCompletions { next := 0, results := [], out := [] }
              (perm.map (fun k => (k, f k)))).results.map Prod.fst :=
        hbig.symm.subset (List.mem_range.mpr hlt)
      rcases List.mem_append.mp hmem with hm | hm
      · exact absurd (List.mem_range.mp hm) (lt_irrefl _)
      · exact (lookupKey_eq_none _ _).mp o3 hm
    rw [o1, hnext]
  · intro pre suf heq
    have hprenodup : pre.Nodup := by
      rw [heq] at hpermnodup
      exact hpermnodup.of_append_left
    obtain ⟨p1, p2, p3, p4⟩ := runCompletions_spec (pre.map (fun q => (q, f q)))
      { next := 0, results := [], out := [] } rfl (by simp) rfl
      (by simp only [hmapfst, List.map_nil, List.append_nil]
          exact hprenodup)
    refine ⟨(runCompletions { next := 0, results := [], out := [] }
      (pre.map (fun q => (q, f q)))).next, ?_, p1⟩
    have hlen2 : (runCompletions { next := 0, results := [], out := [] }
        (pre.map (fun q => (q, f q)))).next
          + ((runCompletions { next := 0, results := [], out := [] }
            (pre.map (fun q => (q, f q)))).results.map Prod.fst).length
        = pre.length := by
      have := ((p1 ▸ p2).trans (by
        simp only [hmapfst, List.map_nil, List.append_nil]
        exact List.Perm.refl _
          : ((pre.map (fun q => (q, f q))).map Prod.fst
        ++ (([] : List (ℕ × R)).map Prod.fst
          ++ ([] : List (ℕ × R)).map Prod.fst)).Perm pre)).length_eq
      simpa using this
    have hprelen : pre.length ≤ N := by
      have : pre.length ≤ perm.length := by
        rw [heq]
        simp
      omega
    omega

/-- Witness for `printer_emits_in_order`: three results completing in the
order 2, 0, 1 are emitted as 0, 1, 2. -/
theorem printer_emits_in_order_witness :
    ((runCompletions { next := 0, results := [], out := [] }
        ([2, 0, 1].map (fun k => (k, k)))).out.map Prod.fst = List.range 3) ∧
    (∀ pre suf : List ℕ, [2, 0, 1] = pre ++ suf →
      ∃ k, k ≤ 3 ∧
        (runCompletions { next := 0, results := [], out := [] }
          (pre.map (fun q => (q, q)))).out.map Prod.fst = List.range k) :=
  printer_emits_in_order 3 ℕ (fun k => k) [2, 0, 1] (by decide)

end ClearComms
